import Mathlib

/-!
# Formal model of the encrypted flat-file database engine (`src/database.py`)

This file gives a shallow embedding of the core of the repository:

* rows (Python `dict`s of JSON scalars) and the condition/update calculus
  used by `Table.search` / `Table.update` / `Table.delete`;
* the row codec of `Table._encrypt_data` / `Table._decrypt_data`
  (JSON-serialize, PKCS#7-pad, AES-CBC with IV = the first 16 bytes of the
  row key, hex-encode) — the AES block transformation itself is an abstract
  parameter, PKCS#7, CBC chaining, chunking and hex coding are concrete;
* `DatabaseEngine._encrypt_key` / `DatabaseEngine._decrypt_key` (the
  passphrase/salt key-derivation path for the secret file);
* the table operations `insert` / `search` / `update` / `delete` over a
  table file modelled as a list of encoded lines;
* the per-database FIFO connection-admission machine of
  `DB.connect` / `DB.disconnect`;
* the database-lifecycle operations `DatabaseEngine.create_database` /
  `DatabaseEngine.delete_database`.

Randomness (`os.urandom`) is passed as explicit arguments; library
primitives (AES, PBKDF2, `json`) are abstract parameters constrained only
by their standard contracts, with the repository-specific composition
around them concrete.
-/

/-! ## Rows and values

A row is a Python dict mapping column names to JSON scalars
(`src/database.py` stores `json.dumps(data)`; the spec restricts row
values to string / number / boolean scalars).  The dict is modelled as an
association list in insertion order; Python numeric/bool cross-type
equality (`True == 1`) is outside the modelled value domain. -/

inductive Value where
  | vStr (s : String)
  | vInt (n : Int)
  | vBool (b : Bool)
deriving DecidableEq, Repr

abbrev Row := List (String × Value)

/-- Python `dict.get k` — the value at the first (unique) binding of `k`. -/
def rowGet (k : String) : Row → Option Value
  | [] => none
  | (k', v) :: rest => if k' = k then some v else rowGet k rest

/-- Python `dict[k] = v` — overwrite the binding of `k` in place if present,
otherwise append it (Python dict insertion-order semantics). -/
def dictSet (r : Row) (k : String) (v : Value) : Row :=
  match r with
  | [] => [(k, v)]
  | (k', v') :: rest => if k' = k then (k, v) :: rest else (k', v') :: dictSet rest k v

/-- Python `row_data.update(updates)` — merge `upds` into `r`, overwriting
matching keys and appending new ones (`src/database.py:341`). -/
def mergeRow (r : Row) (upds : List (String × Value)) : Row :=
  upds.foldl (fun acc kv => dictSet acc kv.1 kv.2) r

/-- The test `all(decrypted_row.get(k) == v for k, v in conditions.items())`
(`src/database.py:306`, `:340`, `:379`): a conjunction of exact-equality
tests; a missing column never matches. -/
def matchesRow (conds : List (String × Value)) (r : Row) : Bool :=
  conds.all fun kv => decide (rowGet kv.1 r = some kv.2)

theorem rowGet_dictSet (r : Row) (k k' : String) (v : Value) :
    rowGet k (dictSet r k' v) = if k' = k then some v else rowGet k r := by
  induction r with
  | nil => simp [dictSet, rowGet]
  | cons hd tl ih =>
    obtain ⟨k₀, v₀⟩ := hd
    by_cases h₀ : k₀ = k'
    · subst h₀
      by_cases h₁ : k₀ = k <;> simp [dictSet, rowGet, h₁]
    · by_cases h₁ : k₀ = k
      · subst h₁
        have : ¬ k' = k₀ := fun h => h₀ h.symm
        simp [dictSet, rowGet, h₀, this]
      · simp [dictSet, rowGet, h₀, h₁, ih]

theorem rowGet_eq_none_of_not_mem (r : Row) (k : String)
    (h : k ∉ r.map Prod.fst) : rowGet k r = none := by
  induction r with
  | nil => rfl
  | cons hd tl ih =>
    obtain ⟨k₀, v₀⟩ := hd
    simp only [List.map_cons, List.mem_cons, not_or] at h
    have : k₀ ≠ k := fun hk => h.1 hk.symm
    simp [rowGet, this, ih h.2]

/-- Characterization of `dict.update` through lookups: a merged key reads
from `upds` when bound there, otherwise from the original row.  Requires
`upds` to have no duplicate keys (it is a Python dict). -/
theorem rowGet_mergeRow (r : Row) (upds : List (String × Value)) (k : String)
    (hnd : (upds.map Prod.fst).Nodup) :
    rowGet k (mergeRow r upds) = (rowGet k upds).orElse (fun _ => rowGet k r) := by
  induction upds generalizing r with
  | nil => simp [mergeRow, rowGet]
  | cons hd tl ih =>
    obtain ⟨k₀, v₀⟩ := hd
    simp only [List.map_cons, List.nodup_cons] at hnd
    have step : mergeRow r ((k₀, v₀) :: tl) = mergeRow (dictSet r k₀ v₀) tl := rfl
    rw [step, ih _ hnd.2]
    by_cases hk : k₀ = k
    · subst hk
      have : rowGet k₀ tl = none := rowGet_eq_none_of_not_mem tl k₀ hnd.1
      simp [rowGet, this, rowGet_dictSet]
    · simp [rowGet, hk, rowGet_dictSet]

/-! ## Byte strings

Bytes are natural numbers below 256; byte strings are lists.  These model
the `bytes` values flowing through the `cryptography` primitives. -/

/-- Pointwise XOR of two byte strings (truncating to the shorter). -/
def xorB (a b : List Nat) : List Nat := List.zipWith Nat.xor a b

theorem xorB_xorB_cancel (a b : List Nat) (h : a.length = b.length) :
    xorB a (xorB a b) = b := by
  induction a generalizing b with
  | nil => cases b with
    | nil => rfl
    | cons y ys => simp at h
  | cons x xs ih =>
    cases b with
    | nil => simp at h
    | cons y ys =>
      simp only [List.length_cons, Nat.add_right_cancel_iff] at h
      have hx : Nat.xor x (Nat.xor x y) = y := by
        show x ^^^ (x ^^^ y) = y
        rw [← Nat.xor_assoc, Nat.xor_self, Nat.zero_xor]
      have htl := ih ys h
      simp only [xorB, List.zipWith_cons_cons] at htl ⊢
      rw [hx, htl]

theorem xorB_length (a b : List Nat) : (xorB a b).length = min a.length b.length := by
  simp [xorB]

theorem xorB_lt_256 (a b : List Nat) (ha : ∀ x ∈ a, x < 256) (hb : ∀ x ∈ b, x < 256) :
    ∀ x ∈ xorB a b, x < 256 := by
  induction a generalizing b with
  | nil => simp [xorB]
  | cons x xs ih =>
    cases b with
    | nil => simp [xorB]
    | cons y ys =>
      intro z hz
      simp only [xorB, List.zipWith_cons_cons, List.mem_cons] at hz
      rcases hz with rfl | hz
      · have h256 : (256 : Nat) = 2 ^ 8 := by norm_num
        rw [h256]
        exact Nat.xor_lt_two_pow (h256 ▸ ha x (by simp)) (h256 ▸ hb y (by simp))
      · exact ih ys (fun u hu => ha u (by simp [hu])) (fun u hu => hb u (by simp [hu])) z hz

/-! ### PKCS#7 padding (block size 128 bits = 16 bytes)

Models `cryptography.hazmat.primitives.padding.PKCS7(128)`: the padder
appends `n` copies of the byte `n` where `n = 16 - len % 16 ∈ [1,16]`; the
unpadder requires a nonempty block-aligned input whose final `n` bytes all
equal the final byte `n ∈ [1,16]`, and strips them, failing otherwise. -/

def pkcs7Pad (bs : List Nat) : List Nat :=
  let n := 16 - bs.length % 16
  bs ++ List.replicate n n

def pkcs7Unpad (bs : List Nat) : Option (List Nat) :=
  bs.getLast?.bind fun n =>
    if bs.length % 16 = 0 ∧ 1 ≤ n ∧ n ≤ 16 ∧ n ≤ bs.length ∧
        (bs.drop (bs.length - n)).all (fun x => x = n)
    then some (bs.take (bs.length - n)) else none

theorem pkcs7Pad_length (bs : List Nat) :
    (pkcs7Pad bs).length = bs.length + (16 - bs.length % 16) := by
  simp [pkcs7Pad]

theorem pkcs7Pad_length_mod (bs : List Nat) : (pkcs7Pad bs).length % 16 = 0 := by
  rw [pkcs7Pad_length]
  omega

theorem pkcs7Pad_lt_256 (bs : List Nat) (h : ∀ x ∈ bs, x < 256) :
    ∀ x ∈ pkcs7Pad bs, x < 256 := by
  intro x hx
  rw [pkcs7Pad, List.mem_append] at hx
  rcases hx with hx | hx
  · exact h x hx
  · rw [List.mem_replicate] at hx
    omega

theorem pkcs7Unpad_pkcs7Pad (bs : List Nat) : pkcs7Unpad (pkcs7Pad bs) = some bs := by
  set n := 16 - bs.length % 16 with hn
  have hmod : bs.length % 16 < 16 := Nat.mod_lt _ (by norm_num)
  have hn1 : 1 ≤ n := by omega
  have hn16 : n ≤ 16 := by omega
  have hpad : pkcs7Pad bs = bs ++ List.replicate n n := rfl
  have hrep : List.replicate n n = List.replicate (n - 1) n ++ [n] := by
    rw [← List.replicate_succ']
    congr 1
    omega
  have hlen : (pkcs7Pad bs).length = bs.length + n := by
    rw [hpad]; simp
  have hlast : (pkcs7Pad bs).getLast? = some n := by
    rw [hpad, hrep, ← List.append_assoc, List.getLast?_concat]
  have hsub : (bs ++ List.replicate n n).length - n = bs.length := by
    simp only [List.length_append, List.length_replicate]
    omega
  have hdrop : (pkcs7Pad bs).drop ((pkcs7Pad bs).length - n) = List.replicate n n := by
    rw [hpad, hsub, List.drop_left]
  have htake : (pkcs7Pad bs).take ((pkcs7Pad bs).length - n) = bs := by
    rw [hpad, hsub, List.take_left]
  rw [pkcs7Unpad, hlast, Option.some_bind]
  rw [if_pos ⟨pkcs7Pad_length_mod bs, hn1, hn16, by rw [hlen]; omega, by
    rw [hdrop]
    simp [List.all_eq_true, List.mem_replicate]⟩]
  rw [htake]

/-! ### Hex coding

Models `bytes.hex()` (lowercase output) and `bytes.fromhex()` (accepting
both cases; the whitespace tolerance of `fromhex` is not modelled as table
lines never contain spaces). -/

def toHexDigit (n : Nat) : Char :=
  if n < 10 then Char.ofNat ('0'.toNat + n) else Char.ofNat ('a'.toNat + (n - 10))

def fromHexDigit (c : Char) : Option Nat :=
  if '0' ≤ c ∧ c ≤ '9' then some (c.toNat - '0'.toNat)
  else if 'a' ≤ c ∧ c ≤ 'f' then some (c.toNat - 'a'.toNat + 10)
  else if 'A' ≤ c ∧ c ≤ 'F' then some (c.toNat - 'A'.toNat + 10)
  else none

def hexEncode (bs : List Nat) : List Char :=
  bs.flatMap fun b => [toHexDigit (b / 16), toHexDigit (b % 16)]

def hexDecode : List Char → Option (List Nat)
  | [] => some []
  | [_] => none
  | c1 :: c2 :: rest => do
    let h ← fromHexDigit c1
    let lo ← fromHexDigit c2
    let bs ← hexDecode rest
    some ((16 * h + lo) :: bs)

theorem fromHexDigit_toHexDigit (d : Nat) (h : d < 16) :
    fromHexDigit (toHexDigit d) = some d := by
  have : ∀ d' : Fin 16, fromHexDigit (toHexDigit d') = some d' := by decide
  exact this ⟨d, h⟩

theorem hexDecode_hexEncode (bs : List Nat) (h : ∀ x ∈ bs, x < 256) :
    hexDecode (hexEncode bs) = some bs := by
  induction bs with
  | nil => rfl
  | cons b rest ih =>
    have hb : b < 256 := h b (List.mem_cons_self _ _)
    have hrest : ∀ x ∈ rest, x < 256 := fun x hx => h x (List.mem_cons_of_mem _ hx)
    have hstep : hexEncode (b :: rest) =
        toHexDigit (b / 16) :: toHexDigit (b % 16) :: hexEncode rest := by
      simp [hexEncode]
    rw [hstep, hexDecode]
    rw [fromHexDigit_toHexDigit _ (by omega),
        fromHexDigit_toHexDigit _ (by omega), ih hrest]
    simp
    omega

theorem hexEncode_length (bs : List Nat) : (hexEncode bs).length = 2 * bs.length := by
  induction bs with
  | nil => rfl
  | cons b rest ih =>
    have : hexEncode (b :: rest) =
        toHexDigit (b / 16) :: toHexDigit (b % 16) :: hexEncode rest := by
      simp [hexEncode]
    rw [this]
    simp [ih]
    omega

theorem hexDecode_odd (l : List Char) (h : l.length % 2 = 1) : hexDecode l = none := by
  induction l using hexDecode.induct with
  | case1 => simp at h
  | case2 => rfl
  | case3 c1 c2 rest ih =>
    simp only [List.length_cons] at h
    have h' : rest.length % 2 = 1 := by omega
    rw [hexDecode, ih h']
    cases fromHexDigit c1 <;> cases fromHexDigit c2 <;> rfl

theorem hexEncode_take (bs : List Nat) (j : Nat) :
    (hexEncode bs).take (2 * j) = hexEncode (bs.take j) := by
  induction bs generalizing j with
  | nil => simp [hexEncode]
  | cons b rest ih =>
    cases j with
    | zero => simp [hexEncode]
    | succ j' =>
      have : hexEncode (b :: rest) =
          toHexDigit (b / 16) :: toHexDigit (b % 16) :: hexEncode rest := by
        simp [hexEncode]
      rw [this, show 2 * (j' + 1) = (2 * j') + 1 + 1 by omega]
      rw [List.take_succ_cons, List.take_succ_cons, ih]
      simp [hexEncode]

/-! ### Splitting into 16-byte blocks

`cryptography`'s CBC implementation consumes the input in 128-bit blocks;
`chunk16` makes that block structure explicit.  A fuel parameter (the
input length suffices) keeps the recursion structural so that the
definition evaluates by kernel reduction. -/

def chunkGo : Nat → List Nat → List (List Nat)
  | _, [] => []
  | 0, _ :: _ => []
  | fuel + 1, b :: bs => ((b :: bs).take 16) :: chunkGo fuel ((b :: bs).drop 16)

def chunk16 (bs : List Nat) : List (List Nat) := chunkGo bs.length bs

theorem chunkGo_flatten (fuel : Nat) (bs : List Nat) (h : bs.length ≤ fuel) :
    (chunkGo fuel bs).flatten = bs := by
  induction fuel generalizing bs with
  | zero =>
    cases bs with
    | nil => rfl
    | cons b rest => simp at h
  | succ fuel ih =>
    cases bs with
    | nil => rfl
    | cons b rest =>
      rw [chunkGo, List.flatten_cons, ih _ (by simp at h ⊢; omega)]
      exact List.take_append_drop 16 (b :: rest)

theorem chunk16_flatten (bs : List Nat) : (chunk16 bs).flatten = bs :=
  chunkGo_flatten bs.length bs le_rfl

theorem chunkGo_block_length (fuel : Nat) (bs : List Nat) (h : bs.length ≤ fuel)
    (hdvd : bs.length % 16 = 0) : ∀ c ∈ chunkGo fuel bs, c.length = 16 := by
  induction fuel generalizing bs with
  | zero =>
    cases bs with
    | nil => simp [chunkGo]
    | cons b rest => simp at h
  | succ fuel ih =>
    cases bs with
    | nil => simp [chunkGo]
    | cons b rest =>
      intro c hc
      rw [chunkGo, List.mem_cons] at hc
      simp only [List.length_cons] at h hdvd
      have h16 : 16 ≤ rest.length + 1 := by omega
      rcases hc with rfl | hc
      · rw [List.length_take]
        simp only [List.length_cons]
        omega
      · refine ih _ ?_ ?_ c hc
        · rw [List.length_drop]
          simp only [List.length_cons]
          omega
        · rw [List.length_drop]
          simp only [List.length_cons]
          omega

theorem chunk16_block_length (bs : List Nat) (hdvd : bs.length % 16 = 0) :
    ∀ c ∈ chunk16 bs, c.length = 16 :=
  chunkGo_block_length bs.length bs le_rfl hdvd

/-- Re-chunking the concatenation of 16-byte blocks recovers the blocks. -/
theorem chunkGo_flatten_blocks (cs : List (List Nat)) (fuel : Nat)
    (hlen : ∀ c ∈ cs, c.length = 16) (h : cs.flatten.length ≤ fuel) :
    chunkGo fuel cs.flatten = cs := by
  induction cs generalizing fuel with
  | nil => cases fuel <;> rfl
  | cons c rest ih =>
    have hc : c.length = 16 := hlen c (by simp)
    have hjoin : (c :: rest).flatten = c ++ rest.flatten := by simp
    have hjlen : (c :: rest).flatten.length = 16 + rest.flatten.length := by
      rw [hjoin, List.length_append, hc]
    cases fuel with
    | zero =>
      exact absurd (hjlen ▸ h) (by omega)
    | succ fuel =>
      have hne : (c :: rest).flatten ≠ [] := by
        intro hnil
        rw [hnil] at hjlen
        simp at hjlen
        omega
      obtain ⟨b, bs, hbs⟩ : ∃ b bs, (c :: rest).flatten = b :: bs := by
        cases hcs : (c :: rest).flatten with
        | nil => exact absurd hcs hne
        | cons b bs => exact ⟨b, bs, rfl⟩
      have h' : rest.flatten.length ≤ fuel := by
        rw [hjlen] at h
        omega
      rw [hbs, chunkGo, ← hbs, hjoin]
      have htk : (c ++ rest.flatten).take 16 = c := by
        rw [← hc, List.take_left]
      have hdr : (c ++ rest.flatten).drop 16 = rest.flatten := by
        rw [← hc, List.drop_left]
      rw [htk, hdr, ih fuel (fun d hd => hlen d (by simp [hd])) h']

theorem chunk16_flatten_blocks (cs : List (List Nat)) (hlen : ∀ c ∈ cs, c.length = 16) :
    chunk16 cs.flatten = cs :=
  chunkGo_flatten_blocks cs cs.flatten.length hlen le_rfl

/-! ### AES-CBC

`Cipher(algorithms.AES(key), modes.CBC(iv))` — the AES block permutation
is abstracted as `E`/`Dc : key → block → block`; the CBC chaining of
`encryptor.update`/`decryptor.update` over 16-byte blocks is concrete. -/

def cbcEncBlocks (E : List Nat → List Nat → List Nat) (key iv : List Nat) :
    List (List Nat) → List (List Nat)
  | [] => []
  | p :: ps =>
    let c := E key (xorB iv p)
    c :: cbcEncBlocks E key c ps

def cbcDecBlocks (Dc : List Nat → List Nat → List Nat) (key iv : List Nat) :
    List (List Nat) → List (List Nat)
  | [] => []
  | c :: cs => xorB iv (Dc key c) :: cbcDecBlocks Dc key c cs

/-- CBC decryption inverts CBC encryption, given that the block cipher is
inverted by `Dc` and preserves the 16-byte block length. -/
theorem cbcDecBlocks_cbcEncBlocks (E Dc : List Nat → List Nat → List Nat)
    (key : List Nat)
    (hDE : ∀ b, b.length = 16 → Dc key (E key b) = b)
    (hElen : ∀ b, b.length = 16 → (E key b).length = 16)
    (ps : List (List Nat)) (iv : List Nat) (hiv : iv.length = 16)
    (hps : ∀ p ∈ ps, p.length = 16) :
    cbcDecBlocks Dc key iv (cbcEncBlocks E key iv ps) = ps := by
  induction ps generalizing iv with
  | nil => rfl
  | cons p ps ih =>
    have hp : p.length = 16 := hps p (by simp)
    have hxlen : (xorB iv p).length = 16 := by
      rw [xorB_length, hiv, hp]
      simp
    have hc : Dc key (E key (xorB iv p)) = xorB iv p := hDE _ hxlen
    have hclen : (E key (xorB iv p)).length = 16 := hElen _ hxlen
    rw [cbcEncBlocks, cbcDecBlocks, hc, xorB_xorB_cancel iv p (by rw [hiv, hp]),
        ih _ hclen (fun q hq => hps q (by simp [hq]))]

theorem cbcEncBlocks_length_blocks (E : List Nat → List Nat → List Nat)
    (key : List Nat) (hElen : ∀ b, b.length = 16 → (E key b).length = 16)
    (ps : List (List Nat)) (iv : List Nat) (hiv : iv.length = 16)
    (hps : ∀ p ∈ ps, p.length = 16) :
    ∀ c ∈ cbcEncBlocks E key iv ps, c.length = 16 := by
  induction ps generalizing iv with
  | nil => simp [cbcEncBlocks]
  | cons p ps ih =>
    have hp : p.length = 16 := hps p (by simp)
    have hxlen : (xorB iv p).length = 16 := by
      rw [xorB_length, hiv, hp]
      simp
    have hclen : (E key (xorB iv p)).length = 16 := hElen _ hxlen
    intro c hc
    rw [cbcEncBlocks, List.mem_cons] at hc
    rcases hc with rfl | hc
    · exact hclen
    · exact ih _ hclen (fun q hq => hps q (by simp [hq])) c hc

theorem cbcEncBlocks_lt_256 (E : List Nat → List Nat → List Nat)
    (key : List Nat)
    (hEbyte : ∀ b, b.length = 16 → (∀ x ∈ b, x < 256) → ∀ x ∈ E key b, x < 256)
    (hElen : ∀ b, b.length = 16 → (E key b).length = 16)
    (ps : List (List Nat)) (iv : List Nat) (hiv : iv.length = 16)
    (hivByte : ∀ x ∈ iv, x < 256)
    (hps : ∀ p ∈ ps, p.length = 16) (hpsByte : ∀ p ∈ ps, ∀ x ∈ p, x < 256) :
    ∀ c ∈ cbcEncBlocks E key iv ps, ∀ x ∈ c, x < 256 := by
  induction ps generalizing iv with
  | nil => simp [cbcEncBlocks]
  | cons p ps ih =>
    have hp : p.length = 16 := hps p (by simp)
    have hxlen : (xorB iv p).length = 16 := by
      rw [xorB_length, hiv, hp]
      simp
    have hxbyte : ∀ x ∈ xorB iv p, x < 256 :=
      xorB_lt_256 iv p hivByte (hpsByte p (by simp))
    have hcbyte : ∀ x ∈ E key (xorB iv p), x < 256 := hEbyte _ hxlen hxbyte
    have hclen : (E key (xorB iv p)).length = 16 := hElen _ hxlen
    intro c hc
    rw [cbcEncBlocks, List.mem_cons] at hc
    rcases hc with rfl | hc
    · exact hcbyte
    · exact ih _ hclen hcbyte (fun q hq => hps q (by simp [hq]))
        (fun q hq => hpsByte q (by simp [hq])) c hc

/-! ## The row codec (`Table._encrypt_data` / `Table._decrypt_data`)

`_encrypt_data` serializes the row with `json.dumps`, PKCS#7-pads it,
AES-CBC-encrypts it under the row key with IV = the first 16 bytes of the
key (`modes.CBC(decryption_key[:16])`, `src/database.py:422`/`:442`), and
hex-encodes the ciphertext.  `_decrypt_data` reverses each step; any
failure (`bytes.fromhex`, non-block-aligned ciphertext, bad padding, JSON
parse) raises — modelled as `none` (the spec's `CorruptRecord`).
`json.dumps` / `json.loads` are abstract parameters `jdumps` / `jloads`. -/

def encryptData (E : List Nat → List Nat → List Nat) (key : List Nat)
    (jdumps : Row → List Nat) (r : Row) : List Char :=
  hexEncode (cbcEncBlocks E key (key.take 16) (chunk16 (pkcs7Pad (jdumps r)))).flatten

def decryptData (Dc : List Nat → List Nat → List Nat) (key : List Nat)
    (jloads : List Nat → Option Row) (line : List Char) : Option Row :=
  (hexDecode line).bind fun ct =>
    if ct.length % 16 = 0 then
      (pkcs7Unpad (cbcDecBlocks Dc key (key.take 16) (chunk16 ct)).flatten).bind jloads
    else none

/-- The concatenation of 16-byte blocks is block-aligned. -/
theorem flatten_length_mod_16 (cs : List (List Nat)) (h : ∀ c ∈ cs, c.length = 16) :
    cs.flatten.length % 16 = 0 := by
  induction cs with
  | nil => simp
  | cons c rest ih =>
    rw [List.flatten_cons, List.length_append, h c (by simp)]
    have := ih (fun d hd => h d (by simp [hd]))
    omega

/-- Claim C2, row codec round trip.  For every row `r` of JSON scalars and
every valid row key `key` (at least 16 bytes of bytes, as produced by
`Table._decrypt_key`'s SHA-256), decoding the encoded form of `r` under
`key` yields `r` back: `Table._decrypt_data (Table._encrypt_data r) = r`.
The block cipher `E`/`Dc` and the JSON codec `jdumps`/`jloads` are
abstract, constrained only by their standard inverse contracts. -/
theorem encryptData_decryptData_roundtrip
    (E Dc : List Nat → List Nat → List Nat) (key : List Nat)
    (jdumps : Row → List Nat) (jloads : List Nat → Option Row) (r : Row)
    (hDE : ∀ b, b.length = 16 → Dc key (E key b) = b)
    (hElen : ∀ b, b.length = 16 → (E key b).length = 16)
    (hEbyte : ∀ b, b.length = 16 → (∀ x ∈ b, x < 256) → ∀ x ∈ E key b, x < 256)
    (hkeyLen : 16 ≤ key.length)
    (hkeyByte : ∀ x ∈ key, x < 256)
    (hjson : jloads (jdumps r) = some r)
    (hjbyte : ∀ x ∈ jdumps r, x < 256) :
    decryptData Dc key jloads (encryptData E key jdumps r) = some r := by
  have hivLen : (key.take 16).length = 16 := by
    rw [List.length_take]
    omega
  have hivByte : ∀ x ∈ key.take 16, x < 256 :=
    fun x hx => hkeyByte x (List.mem_of_mem_take hx)
  have hpadMod : (pkcs7Pad (jdumps r)).length % 16 = 0 := pkcs7Pad_length_mod _
  have hblocks : ∀ c ∈ chunk16 (pkcs7Pad (jdumps r)), c.length = 16 :=
    chunk16_block_length _ hpadMod
  have hblocksByte : ∀ c ∈ chunk16 (pkcs7Pad (jdumps r)), ∀ x ∈ c, x < 256 := by
    intro c hc x hx
    refine pkcs7Pad_lt_256 _ hjbyte x ?_
    rw [← chunk16_flatten (pkcs7Pad (jdumps r))]
    exact List.mem_flatten.mpr ⟨c, hc, hx⟩
  set ctb := cbcEncBlocks E key (key.take 16) (chunk16 (pkcs7Pad (jdumps r))) with hctb
  have hctbLen : ∀ c ∈ ctb, c.length = 16 :=
    cbcEncBlocks_length_blocks E key hElen _ _ hivLen hblocks
  have hctbByte : ∀ c ∈ ctb, ∀ x ∈ c, x < 256 :=
    cbcEncBlocks_lt_256 E key hEbyte hElen _ _ hivLen hivByte hblocks hblocksByte
  have hctByte : ∀ x ∈ ctb.flatten, x < 256 := by
    intro x hx
    obtain ⟨c, hc, hx⟩ := List.mem_flatten.mp hx
    exact hctbByte c hc x hx
  have hctMod : ctb.flatten.length % 16 = 0 := flatten_length_mod_16 _ hctbLen
  rw [encryptData, decryptData, hexDecode_hexEncode _ hctByte, Option.some_bind]
  rw [if_pos hctMod, chunk16_flatten_blocks _ hctbLen]
  rw [hctb, cbcDecBlocks_cbcEncBlocks E Dc key hDE hElen _ _ hivLen hblocks]
  rw [chunk16_flatten, pkcs7Unpad_pkcs7Pad, Option.some_bind]
  exact hjson

/-- Witness for the row-codec round trip: the identity block cipher (its
own inverse, length- and byte-preserving), a 32-byte all-zero row key, and
a one-column row serialized to the single byte `65`. -/
theorem encryptData_decryptData_roundtrip_witness :
    decryptData (fun _ b => b) (List.replicate 32 0)
      (fun bs => if bs = [65] then some [("a", Value.vInt 1)] else none)
      (encryptData (fun _ b => b) (List.replicate 32 0)
        (fun _ => [65]) [("a", Value.vInt 1)]) = some [("a", Value.vInt 1)] :=
  encryptData_decryptData_roundtrip (fun _ b => b) (fun _ b => b)
    (List.replicate 32 0) (fun _ => [65])
    (fun bs => if bs = [65] then some [("a", Value.vInt 1)] else none)
    [("a", Value.vInt 1)]
    (fun _ _ => rfl) (fun _ hb => hb) (fun _ _ hb => hb)
    (by decide) (by decide) (by decide) (by decide)

/-! ## The secret-file key path
(`DatabaseEngine._encrypt_key` / `DatabaseEngine._decrypt_key`)

PBKDF2-HMAC-SHA256 is abstracted as `kdf passphrase salt`; AES blocks as
`E`/`Dc` as above.  `os.urandom` draws are explicit arguments. -/

namespace DatabaseEngine

/-- Embeds `DatabaseEngine._encrypt_key` (src/database.py:119-142): derives an
AES key from the engine passphrase and a fresh random salt, CBC-encrypts
the PKCS#7-padded database key under a fresh random IV, and returns
`iv ++ ciphertext`.  The salt is used only for derivation; it is not part
of the returned bytes and is never persisted. -/
def encrypt_key (E kdf : List Nat → List Nat → List Nat)
    (passphrase salt iv db_key : List Nat) : List Nat :=
  let aes_key := kdf passphrase salt
  iv ++ (cbcEncBlocks E aes_key iv (chunk16 (pkcs7Pad db_key))).flatten

/-- Embeds `DatabaseEngine._decrypt_key` (src/database.py:144-168): splits the
input into `iv = encrypted_key[:16]` and the ciphertext, derives the AES
key from the passphrase and a **freshly generated** random salt
(`salt=os.urandom(16)`, src/database.py:152), CBC-decrypts and strips the
padding (failure of block alignment or padding raises, modelled `none`). -/
def decrypt_key (Dc kdf : List Nat → List Nat → List Nat)
    (passphrase fresh_salt encrypted_key : List Nat) : Option (List Nat) :=
  let iv := encrypted_key.take 16
  let ct := encrypted_key.drop 16
  let aes_key := kdf passphrase fresh_salt
  if ct.length % 16 = 0 then
    pkcs7Unpad (cbcDecBlocks Dc aes_key iv (chunk16 ct)).flatten
  else none

end DatabaseEngine

/-- Claim C1, secret round trip — the code violates it.  The claim requires
`_decrypt_key` to re-derive the AES key from the passphrase and the salt
persisted alongside the ciphertext; the code persists no salt
(`_encrypt_key` returns `iv ++ ciphertext` only) and derives the
decrypt-time key from a fresh random salt.  Demonstrated at an invertible
toy instantiation (`kdf passphrase salt = salt`, block cipher = XOR with
the key, which satisfies every block-cipher contract used in this file):
decrypting with the encrypt-time salt recovers the secret `[65]`, while
decrypting with a different fresh salt — the code's actual behaviour —
yields a different byte string, so `reveal(create()) ≠ secret` and two
`reveal` calls with different fresh salts need not agree. -/
theorem DatabaseEngine.decrypt_key_fresh_salt_breaks_roundtrip :
    (DatabaseEngine.decrypt_key (fun k b => xorB k b) (fun _ salt => salt)
      [] (List.replicate 16 0)
      (DatabaseEngine.encrypt_key (fun k b => xorB k b) (fun _ salt => salt)
        [] (List.replicate 16 0) (List.replicate 16 0) [65]) = some [65]) ∧
    (DatabaseEngine.decrypt_key (fun k b => xorB k b) (fun _ salt => salt)
      [] (List.replicate 16 1)
      (DatabaseEngine.encrypt_key (fun k b => xorB k b) (fun _ salt => salt)
        [] (List.replicate 16 0) (List.replicate 16 0) [65]) ≠ some [65]) := by
  constructor
  · decide
  · decide

/-! ## Table operations (`Table.insert` / `search` / `update` / `delete`)

A table file is the ordered list of its encoded lines.  The row codec is
abstracted here as an encoder `enc` and fallible decoder `dec` (the
`encryptData`/`decryptData` pair above instantiates them); `conn` is
`Table._is_connected()` (src/database.py:390-393).  Each operation
returns its result — or the raised error — together with the table file
after the call. -/

inductive TblErr where
  | notConnected
  | corruptRecord
deriving DecidableEq, Repr

abbrev Line := List Char

/-- Decode every line of a file, in order, failing at the first line the
codec rejects. -/
def decodeAll (dec : Line → Option Row) : List Line → Option (List Row)
  | [] => some []
  | l :: ls =>
    match dec l with
    | none => none
    | some r => (decodeAll dec ls).map (r :: ·)

namespace Table

/-- The read loop of `Table.search` (src/database.py:300-307): decrypt
each line in file order and keep the rows matching every condition; a
failing decrypt propagates as an exception (`none`). -/
def searchLoop (dec : Line → Option Row) (conds : List (String × Value)) :
    List Line → Option (List Row)
  | [] => some []
  | l :: ls =>
    match dec l with
    | none => none
    | some r =>
      (searchLoop dec conds ls).map fun rest =>
        if matchesRow conds r then r :: rest else rest

/-- The rewrite loop of `Table.update` (src/database.py:336-345): decrypt
each line, merge `updates` into the rows matching `conditions`, collect
those changed rows, and re-encrypt every row (changed or not) in order.
Returns `(updated_rows, new file lines)`. -/
def updateLoop (enc : Row → Line) (dec : Line → Option Row)
    (conds upds : List (String × Value)) :
    List Line → Option (List Row × List Line)
  | [] => some ([], [])
  | l :: ls =>
    match dec l with
    | none => none
    | some r =>
      (updateLoop enc dec conds upds ls).map fun p =>
        if matchesRow conds r then
          (mergeRow r upds :: p.1, enc (mergeRow r upds) :: p.2)
        else (p.1, enc r :: p.2)

/-- The rewrite loop of `Table.delete` (src/database.py:375-384): decrypt
each line, collect the rows matching `conditions`, and re-encrypt only
the rows that do not match, in order.  Returns `(deleted_rows, new file
lines)`. -/
def deleteLoop (enc : Row → Line) (dec : Line → Option Row)
    (conds : List (String × Value)) :
    List Line → Option (List Row × List Line)
  | [] => some ([], [])
  | l :: ls =>
    match dec l with
    | none => none
    | some r =>
      (deleteLoop enc dec conds ls).map fun p =>
        if matchesRow conds r then (r :: p.1, p.2) else (p.1, enc r :: p.2)

/-- Embeds `Table.search` (src/database.py:286-311): requires the connection to
be active, streams the file without writing it. -/
def search (dec : Line → Option Row) (conn : Bool)
    (conds : List (String × Value)) (file : List Line) :
    Except TblErr (List Row) × List Line :=
  if conn then
    match searchLoop dec conds file with
    | none => (.error .corruptRecord, file)
    | some rows => (.ok rows, file)
  else (.error .notConnected, file)

/-- Embeds `Table.insert` (src/database.py:263-284): requires the connection to
be active, then appends one encoded line to the file. -/
def insert (enc : Row → Line) (conn : Bool) (r : Row) (file : List Line) :
    Except TblErr Unit × List Line :=
  if conn then (.ok (), file ++ [enc r]) else (.error .notConnected, file)

/-- Embeds `Table.update` (src/database.py:313-349): requires the connection to
be active; first runs `search` over the file (`rows_to_update`, a read
pass that happens before the file is opened for writing, so a corrupt
line raises with the file untouched), returns `[]` early when nothing
matches, and otherwise rewrites the whole file through `updateLoop`.  The
final `corruptRecord` branch is unreachable: the pre-pass has already
decoded every line. -/
def update (enc : Row → Line) (dec : Line → Option Row) (conn : Bool)
    (conds upds : List (String × Value)) (file : List Line) :
    Except TblErr (List Row) × List Line :=
  if conn then
    match searchLoop dec conds file with
    | none => (.error .corruptRecord, file)
    | some toUpdate =>
      if toUpdate.isEmpty then (.ok [], file)
      else
        match updateLoop enc dec conds upds file with
        | some p => (.ok p.1, p.2)
        | none => (.error .corruptRecord, file)
  else (.error .notConnected, file)

/-- Embeds `Table.delete` (src/database.py:351-388): same structure as `update`
with the delete rewrite loop. -/
def delete (enc : Row → Line) (dec : Line → Option Row) (conn : Bool)
    (conds : List (String × Value)) (file : List Line) :
    Except TblErr (List Row) × List Line :=
  if conn then
    match searchLoop dec conds file with
    | none => (.error .corruptRecord, file)
    | some toDelete =>
      if toDelete.isEmpty then (.ok [], file)
      else
        match deleteLoop enc dec conds file with
        | some p => (.ok p.1, p.2)
        | none => (.error .corruptRecord, file)
  else (.error .notConnected, file)

end Table

theorem decodeAll_length (dec : Line → Option Row) (file : List Line)
    (rows : List Row) (h : decodeAll dec file = some rows) :
    rows.length = file.length := by
  induction file generalizing rows with
  | nil =>
    rw [decodeAll] at h
    cases h
    rfl
  | cons l ls ih =>
    rw [decodeAll] at h
    cases hd : dec l with
    | none => rw [hd] at h; cases h
    | some r =>
      rw [hd] at h
      cases hrest : decodeAll dec ls with
      | none => rw [hrest] at h; cases h
      | some rest =>
        rw [hrest] at h
        cases h
        simp [ih rest hrest]

theorem decodeAll_map_enc (enc : Row → Line) (dec : Line → Option Row)
    (rs : List Row) (hrt : ∀ r ∈ rs, dec (enc r) = some r) :
    decodeAll dec (rs.map enc) = some rs := by
  induction rs with
  | nil => rfl
  | cons r rest ih =>
    simp [decodeAll, hrt r (by simp), ih fun q hq => hrt q (by simp [hq])]

theorem searchLoop_eq_filter (dec : Line → Option Row)
    (conds : List (String × Value)) (file : List Line) (rows : List Row)
    (h : decodeAll dec file = some rows) :
    Table.searchLoop dec conds file = some (rows.filter (matchesRow conds)) := by
  induction file generalizing rows with
  | nil =>
    rw [decodeAll] at h
    cases h
    rfl
  | cons l ls ih =>
    rw [decodeAll] at h
    cases hd : dec l with
    | none => rw [hd] at h; cases h
    | some r =>
      rw [hd] at h
      cases hrest : decodeAll dec ls with
      | none => rw [hrest] at h; cases h
      | some rest =>
        rw [hrest] at h
        cases h
        rw [Table.searchLoop, hd, ih rest hrest]
        by_cases hm : matchesRow conds r <;> simp [hm, List.filter_cons]

theorem searchLoop_none_of_corrupt (dec : Line → Option Row)
    (conds : List (String × Value)) (file : List Line) (l : Line)
    (hmem : l ∈ file) (hbad : dec l = none) :
    Table.searchLoop dec conds file = none := by
  induction file with
  | nil => cases hmem
  | cons hd tl ih =>
    rw [List.mem_cons] at hmem
    rcases hmem with rfl | hmem
    · rw [Table.searchLoop, hbad]
    · rw [Table.searchLoop]
      cases hd' : dec hd with
      | none => rfl
      | some r => rw [ih hmem]; rfl

theorem updateLoop_eq (enc : Row → Line) (dec : Line → Option Row)
    (conds upds : List (String × Value)) (file : List Line) (rows : List Row)
    (h : decodeAll dec file = some rows) :
    Table.updateLoop enc dec conds upds file =
      some ((rows.filter (matchesRow conds)).map (fun r => mergeRow r upds),
        (rows.map fun r => if matchesRow conds r then mergeRow r upds else r).map enc) := by
  induction file generalizing rows with
  | nil =>
    rw [decodeAll] at h
    cases h
    rfl
  | cons l ls ih =>
    rw [decodeAll] at h
    cases hd : dec l with
    | none => rw [hd] at h; cases h
    | some r =>
      rw [hd] at h
      cases hrest : decodeAll dec ls with
      | none => rw [hrest] at h; cases h
      | some rest =>
        rw [hrest] at h
        cases h
        rw [Table.updateLoop, hd, ih rest hrest]
        by_cases hm : matchesRow conds r <;> simp [hm, List.filter_cons]

theorem deleteLoop_eq (enc : Row → Line) (dec : Line → Option Row)
    (conds : List (String × Value)) (file : List Line) (rows : List Row)
    (h : decodeAll dec file = some rows) :
    Table.deleteLoop enc dec conds file =
      some (rows.filter (matchesRow conds),
        (rows.filter fun r => ! matchesRow conds r).map enc) := by
  induction file generalizing rows with
  | nil =>
    rw [decodeAll] at h
    cases h
    rfl
  | cons l ls ih =>
    rw [decodeAll] at h
    cases hd : dec l with
    | none => rw [hd] at h; cases h
    | some r =>
      rw [hd] at h
      cases hrest : decodeAll dec ls with
      | none => rw [hrest] at h; cases h
      | some rest =>
        rw [hrest] at h
        cases h
        rw [Table.deleteLoop, hd, ih rest hrest]
        by_cases hm : matchesRow conds r <;> simp [hm, List.filter_cons]

theorem length_filter_not_add (p : Row → Bool) (l : List Row) :
    (l.filter fun a => ! p a).length + (l.filter p).length = l.length := by
  induction l with
  | nil => rfl
  | cons a rest ih =>
    by_cases h : p a <;> simp [List.filter_cons, h] <;> omega

/-- Claim C5, search semantics.  Over a file whose lines decode to `rows`,
`Table.search` (connected) returns exactly the rows for which every
`(column, expected_value)` pair of `conditions` matches by equality, in
file order (a sublist of the decoded file), leaves the file unchanged,
and an empty conditions mapping returns every row. -/
theorem Table.search_semantics (dec : Line → Option Row)
    (conds : List (String × Value)) (file : List Line) (rows : List Row)
    (h : decodeAll dec file = some rows) :
    Table.search dec true conds file = (.ok (rows.filter (matchesRow conds)), file) ∧
    (rows.filter (matchesRow conds)).Sublist rows ∧
    (conds = [] → rows.filter (matchesRow conds) = rows) := by
  refine ⟨?_, List.filter_sublist _, ?_⟩
  · rw [Table.search, if_pos rfl, searchLoop_eq_filter dec conds file rows h]
  · rintro rfl
    exact List.filter_eq_self.mpr fun a _ => rfl

/-- Witness for C5: a one-line file holding the row `{a: 1}`, searched
with the condition `{a: 1}`. -/
theorem Table.search_semantics_witness :
    Table.search (fun l => if l = ['x'] then some [("a", Value.vInt 1)] else none)
      true [("a", Value.vInt 1)] [['x']]
      = (.ok [[("a", Value.vInt 1)]], [['x']]) := by
  have h := Table.search_semantics
    (fun l => if l = ['x'] then some [("a", Value.vInt 1)] else none)
    [("a", Value.vInt 1)] [['x']] [[("a", Value.vInt 1)]] (by decide)
  rw [h.1]
  rfl

/-- Claim C3, update semantics.  Over a file whose lines decode to `rows`
(`updates` being a dict, hence with distinct keys, and the codec
round-tripping on the rewritten rows), `Table.update` (connected) returns
exactly the matching rows with `updates` merged in; the rewritten file
decodes, in original order, to the matching rows merged and the
non-matching rows untouched; the row count is conserved; position by
position, non-matching rows keep their exact prior value, and matching
rows read each column from `updates` when bound there and from their
prior value otherwise. -/
theorem Table.update_semantics (enc : Row → Line) (dec : Line → Option Row)
    (conds upds : List (String × Value)) (file : List Line) (rows : List Row)
    (hdec : decodeAll dec file = some rows)
    (hrt : ∀ r ∈ rows.map fun r => if matchesRow conds r then mergeRow r upds else r,
      dec (enc r) = some r)
    (hnd : (upds.map Prod.fst).Nodup) :
    ∃ newFile : List Line,
      Table.update enc dec true conds upds file =
        (.ok ((rows.filter (matchesRow conds)).map fun r => mergeRow r upds), newFile) ∧
      decodeAll dec newFile =
        some (rows.map fun r => if matchesRow conds r then mergeRow r upds else r) ∧
      newFile.length = file.length ∧
      (∀ (i : Nat) (r : Row), rows[i]? = some r → matchesRow conds r = false →
        (rows.map fun r => if matchesRow conds r then mergeRow r upds else r)[i]?
          = some r) ∧
      (∀ (i : Nat) (r : Row), rows[i]? = some r → matchesRow conds r = true →
        (rows.map fun r => if matchesRow conds r then mergeRow r upds else r)[i]?
          = some (mergeRow r upds) ∧
        ∀ k, rowGet k (mergeRow r upds) = (rowGet k upds).orElse (fun _ => rowGet k r)) := by
  have hlen := decodeAll_length dec file rows hdec
  have hretain : ∀ (i : Nat) (r : Row), rows[i]? = some r → matchesRow conds r = false →
      (rows.map fun r => if matchesRow conds r then mergeRow r upds else r)[i]?
        = some r := by
    intro i r hi hm
    rw [List.getElem?_map, hi]
    simp [hm]
  have hmerge : ∀ (i : Nat) (r : Row), rows[i]? = some r → matchesRow conds r = true →
      (rows.map fun r => if matchesRow conds r then mergeRow r upds else r)[i]?
        = some (mergeRow r upds) ∧
      ∀ k, rowGet k (mergeRow r upds) = (rowGet k upds).orElse (fun _ => rowGet k r) := by
    intro i r hi hm
    constructor
    · rw [List.getElem?_map, hi]
      simp [hm]
    · intro k
      exact rowGet_mergeRow r upds k hnd
  by_cases hempty : rows.filter (matchesRow conds) = []
  · have hall : ∀ r ∈ rows, matchesRow conds r = false := by
      intro r hr
      have := List.filter_eq_nil_iff.mp hempty r hr
      simpa using this
    have hid : (rows.map fun r => if matchesRow conds r then mergeRow r upds else r)
        = rows := by
      rw [List.map_congr_left (g := id) fun r hr => by simp [hall r hr]]
      exact List.map_id rows
    refine ⟨file, ?_, ?_, rfl, hretain, hmerge⟩
    · rw [Table.update, if_pos rfl, searchLoop_eq_filter dec conds file rows hdec, hempty]
      simp
    · rw [hid]
      exact hdec
  · refine ⟨(rows.map fun r => if matchesRow conds r then mergeRow r upds else r).map enc,
      ?_, decodeAll_map_enc enc dec _ hrt, ?_, hretain, hmerge⟩
    · rw [Table.update, if_pos rfl, searchLoop_eq_filter dec conds file rows hdec,
        updateLoop_eq enc dec conds upds file rows hdec]
      have hne : (rows.filter (matchesRow conds)).isEmpty = false := by
        simpa [List.isEmpty_iff] using hempty
      simp [hne]
    · simp [hlen]

/-- Witness for C3: a one-line file holding `{a: 1}`, updated with
`{b: 2}` under the condition `{a: 1}`; the returned changed row is the
merged `{a: 1, b: 2}`. -/
theorem Table.update_semantics_witness :
    (Table.update
      (fun r => if r = [("a", Value.vInt 1), ("b", Value.vInt 2)] then ['y'] else ['x'])
      (fun l => if l = ['y'] then some [("a", Value.vInt 1), ("b", Value.vInt 2)]
        else if l = ['x'] then some [("a", Value.vInt 1)] else none)
      true [("a", Value.vInt 1)] [("b", Value.vInt 2)] [['x']]).1
      = Except.ok [[("a", Value.vInt 1), ("b", Value.vInt 2)]] := by
  obtain ⟨nf, h1, _⟩ := Table.update_semantics
    (fun r => if r = [("a", Value.vInt 1), ("b", Value.vInt 2)] then ['y'] else ['x'])
    (fun l => if l = ['y'] then some [("a", Value.vInt 1), ("b", Value.vInt 2)]
      else if l = ['x'] then some [("a", Value.vInt 1)] else none)
    [("a", Value.vInt 1)] [("b", Value.vInt 2)] [['x']] [[("a", Value.vInt 1)]]
    (by decide) (by decide) (by decide)
  rw [h1]
  rfl

/-- Claim C4, delete semantics.  Over a file whose lines decode to `rows`
(the codec round-tripping on the surviving rows), `Table.delete`
(connected) returns exactly the matching rows in file order; the
rewritten file decodes to the non-matching rows in their original
relative order (a sublist of `rows`), and the remaining row count is the
original count minus the removed count. -/
theorem Table.delete_semantics (enc : Row → Line) (dec : Line → Option Row)
    (conds : List (String × Value)) (file : List Line) (rows : List Row)
    (hdec : decodeAll dec file = some rows)
    (hrt : ∀ r ∈ rows.filter fun r => ! matchesRow conds r, dec (enc r) = some r) :
    ∃ newFile : List Line,
      Table.delete enc dec true conds file =
        (.ok (rows.filter (matchesRow conds)), newFile) ∧
      decodeAll dec newFile = some (rows.filter fun r => ! matchesRow conds r) ∧
      newFile.length = file.length - (rows.filter (matchesRow conds)).length ∧
      (rows.filter fun r => ! matchesRow conds r).Sublist rows := by
  have hlen := decodeAll_length dec file rows hdec
  have hsum := length_filter_not_add (matchesRow conds) rows
  by_cases hempty : rows.filter (matchesRow conds) = []
  · have hall : ∀ r ∈ rows, matchesRow conds r = false := by
      intro r hr
      have := List.filter_eq_nil_iff.mp hempty r hr
      simpa using this
    have hfid : (rows.filter fun r => ! matchesRow conds r) = rows :=
      List.filter_eq_self.mpr fun a ha => by simp [hall a ha]
    refine ⟨file, ?_, ?_, ?_, ?_⟩
    · rw [Table.delete, if_pos rfl, searchLoop_eq_filter dec conds file rows hdec, hempty]
      simp
    · rw [hfid]
      exact hdec
    · rw [hempty]
      simp
    · rw [hfid]
  · refine ⟨(rows.filter fun r => ! matchesRow conds r).map enc, ?_,
      decodeAll_map_enc enc dec _ hrt, ?_, List.filter_sublist _⟩
    · rw [Table.delete, if_pos rfl, searchLoop_eq_filter dec conds file rows hdec,
        deleteLoop_eq enc dec conds file rows hdec]
      have hne : (rows.filter (matchesRow conds)).isEmpty = false := by
        simpa [List.isEmpty_iff] using hempty
      simp [hne]
    · rw [List.length_map]
      omega

/-- Witness for C4: a two-line file holding `{a: 1}` and `{a: 2}`,
deleting `{a: 1}` returns that row and keeps the other. -/
theorem Table.delete_semantics_witness :
    (Table.delete
      (fun r => if r = [("a", Value.vInt 2)] then ['y'] else ['x'])
      (fun l => if l = ['x'] then some [("a", Value.vInt 1)]
        else if l = ['y'] then some [("a", Value.vInt 2)] else none)
      true [("a", Value.vInt 1)] [['x'], ['y']]).1
      = Except.ok [[("a", Value.vInt 1)]] := by
  obtain ⟨nf, h1, _⟩ := Table.delete_semantics
    (fun r => if r = [("a", Value.vInt 2)] then ['y'] else ['x'])
    (fun l => if l = ['x'] then some [("a", Value.vInt 1)]
      else if l = ['y'] then some [("a", Value.vInt 2)] else none)
    [("a", Value.vInt 1)] [['x'], ['y']] [[("a", Value.vInt 1)], [("a", Value.vInt 2)]]
    (by decide) (by decide)
  rw [h1]
  rfl

/-- Claim C10, no-match frame.  When no decoded row matches `conditions`,
both `Table.update` and `Table.delete` return the empty sequence through
their early-return path and leave the table file exactly as it was. -/
theorem Table.no_match_frame (enc : Row → Line) (dec : Line → Option Row)
    (conds upds : List (String × Value)) (file : List Line) (rows : List Row)
    (hdec : decodeAll dec file = some rows)
    (hnone : rows.filter (matchesRow conds) = []) :
    Table.update enc dec true conds upds file = (.ok [], file) ∧
    Table.delete enc dec true conds file = (.ok [], file) := by
  constructor
  · rw [Table.update, if_pos rfl, searchLoop_eq_filter dec conds file rows hdec, hnone]
    simp
  · rw [Table.delete, if_pos rfl, searchLoop_eq_filter dec conds file rows hdec, hnone]
    simp

/-- Witness for C10: a one-line file holding `{a: 1}` with the
non-matching condition `{a: 2}`. -/
theorem Table.no_match_frame_witness :
    Table.update (fun _ => ['y'])
      (fun l => if l = ['x'] then some [("a", Value.vInt 1)] else none)
      true [("a", Value.vInt 2)] [("b", Value.vInt 3)] [['x']]
      = (.ok [], [['x']]) ∧
    Table.delete (fun _ => ['y'])
      (fun l => if l = ['x'] then some [("a", Value.vInt 1)] else none)
      true [("a", Value.vInt 2)] [['x']]
      = (.ok [], [['x']]) :=
  Table.no_match_frame (fun _ => ['y'])
    (fun l => if l = ['x'] then some [("a", Value.vInt 1)] else none)
    [("a", Value.vInt 2)] [("b", Value.vInt 3)] [['x']] [[("a", Value.vInt 1)]]
    (by decide) (by decide)

/-- Claim C8, connected precondition.  Every row operation — `insert`,
`search`, `update` and `delete` alike, with no read-only exception for
`search` — fails with the not-connected error when
`Table._is_connected()` is false, and leaves the table file unchanged. -/
theorem Table.disconnected_rejects_all_ops (enc : Row → Line)
    (dec : Line → Option Row) (conds upds : List (String × Value))
    (r : Row) (file : List Line) :
    Table.insert enc false r file = (.error .notConnected, file) ∧
    Table.search dec false conds file = (.error .notConnected, file) ∧
    Table.update enc dec false conds upds file = (.error .notConnected, file) ∧
    Table.delete enc dec false conds file = (.error .notConnected, file) :=
  ⟨rfl, rfl, rfl, rfl⟩

/-- Claim C9, corrupt line detection.  First conjunct: any stored line the
codec rejects (`CorruptRecord`) makes `Table.search` over a file
containing it fail with `corruptRecord` — the line is neither silently
dropped nor accepted, and the file is left as it was.  Second conjunct:
truncating a valid encoded line anywhere but at a whole-ciphertext-block
boundary (32 hex characters) is rejected by the codec: an odd cut breaks
`bytes.fromhex`, an even cut off the 16-byte block raster is refused by
the CBC decryptor. -/
theorem Table.corrupt_line_surfaces
    (E Dc : List Nat → List Nat → List Nat) (key : List Nat)
    (jdumps : Row → List Nat) (jloads : List Nat → Option Row)
    (hElen : ∀ b, b.length = 16 → (E key b).length = 16)
    (hEbyte : ∀ b, b.length = 16 → (∀ x ∈ b, x < 256) → ∀ x ∈ E key b, x < 256)
    (hkeyLen : 16 ≤ key.length)
    (hkeyByte : ∀ x ∈ key, x < 256) :
    (∀ (conds : List (String × Value)) (pre post : List Line) (l : Line),
      decryptData Dc key jloads l = none →
      Table.search (decryptData Dc key jloads) true conds (pre ++ l :: post)
        = (.error .corruptRecord, pre ++ l :: post)) ∧
    (∀ (r : Row) (m : Nat), (∀ x ∈ jdumps r, x < 256) →
      m < (encryptData E key jdumps r).length → ¬ (32 ∣ m) →
      decryptData Dc key jloads ((encryptData E key jdumps r).take m) = none) := by
  constructor
  · intro conds pre post l hbad
    rw [Table.search, if_pos rfl,
      searchLoop_none_of_corrupt _ conds _ l (by simp) hbad]
  · intro r m hjbyte hm h32
    have hivLen : (key.take 16).length = 16 := by
      rw [List.length_take]
      omega
    have hivByte : ∀ x ∈ key.take 16, x < 256 :=
      fun x hx => hkeyByte x (List.mem_of_mem_take hx)
    have hpadMod : (pkcs7Pad (jdumps r)).length % 16 = 0 := pkcs7Pad_length_mod _
    have hblocks : ∀ c ∈ chunk16 (pkcs7Pad (jdumps r)), c.length = 16 :=
      chunk16_block_length _ hpadMod
    have hblocksByte : ∀ c ∈ chunk16 (pkcs7Pad (jdumps r)), ∀ x ∈ c, x < 256 := by
      intro c hc x hx
      refine pkcs7Pad_lt_256 _ hjbyte x ?_
      rw [← chunk16_flatten (pkcs7Pad (jdumps r))]
      exact List.mem_flatten.mpr ⟨c, hc, hx⟩
    set ctb := cbcEncBlocks E key (key.take 16) (chunk16 (pkcs7Pad (jdumps r))) with hctb
    have hctbLen : ∀ c ∈ ctb, c.length = 16 :=
      cbcEncBlocks_length_blocks E key hElen _ _ hivLen hblocks
    have hctbByte : ∀ c ∈ ctb, ∀ x ∈ c, x < 256 :=
      cbcEncBlocks_lt_256 E key hEbyte hElen _ _ hivLen hivByte hblocks hblocksByte
    have hctByte : ∀ x ∈ ctb.flatten, x < 256 := by
      intro x hx
      obtain ⟨c, hc, hx'⟩ := List.mem_flatten.mp hx
      exact hctbByte c hc x hx'
    have hline : encryptData E key jdumps r = hexEncode ctb.flatten := rfl
    have hlineLen : (encryptData E key jdumps r).length = 2 * ctb.flatten.length := by
      rw [hline, hexEncode_length]
    rw [hline] at hm ⊢
    rcases Nat.even_or_odd m with he | ho
    · obtain ⟨j, hj⟩ := he
      have hj2 : m = 2 * j := by omega
      have hjlt : j < ctb.flatten.length := by
        rw [hexEncode_length] at hm
        omega
      have htake : (hexEncode ctb.flatten).take m = hexEncode (ctb.flatten.take j) := by
        rw [hj2, hexEncode_take]
      have hbytes : ∀ x ∈ ctb.flatten.take j, x < 256 :=
        fun x hx => hctByte x (List.mem_of_mem_take hx)
      have hjlen : (ctb.flatten.take j).length = j := by
        rw [List.length_take]
        omega
      have hj16 : ¬ ((ctb.flatten.take j).length % 16 = 0) := by
        rw [hjlen]
        omega
      rw [htake, decryptData, hexDecode_hexEncode _ hbytes, Option.some_bind,
        if_neg hj16]
    · have hmlen : ((hexEncode ctb.flatten).take m).length = m := by
        rw [List.length_take]
        omega
      have hodd : ((hexEncode ctb.flatten).take m).length % 2 = 1 := by
        rw [hmlen]
        obtain ⟨j, hj⟩ := ho
        omega
      rw [decryptData, hexDecode_odd _ hodd]
      rfl

/-- Witness for C9: with the identity block cipher and a 32-byte zero
key, the single-character line `'z'` is rejected and makes `search` fail
with `corruptRecord`; truncating a freshly encoded line to one character
is likewise rejected. -/
theorem Table.corrupt_line_surfaces_witness :
    Table.search (decryptData (fun _ b => b) (List.replicate 32 0) (fun _ => none))
      true [] [['z']] = (.error .corruptRecord, [['z']]) ∧
    decryptData (fun _ b => b) (List.replicate 32 0) (fun _ => none)
      ((encryptData (fun _ b => b) (List.replicate 32 0) (fun _ => [65]) []).take 1)
      = none := by
  have h := Table.corrupt_line_surfaces (fun _ b => b) (fun _ b => b)
    (List.replicate 32 0) (fun _ => [65]) (fun _ => none)
    (fun _ hb => hb) (fun _ _ hb => hb) (by decide) (by decide)
  exact ⟨h.1 [] [] [] ['z'] (by decide), h.2 [] 1 (by decide) (by decide) (by decide)⟩

/-! ## Connection admission (`DB.connect` / `DB.disconnect`)

Per-database admission state: the FIFO queue `connection_queues[db]` of
waiting process identifiers and the holder `active_connections[db]`.
`DB.connect` appends the caller's pid to the queue, polls until that pid
is at the head, then marks it active; `DB.disconnect` clears the active
marker and pops the head (src/database.py:179-216).  Each `connect` call
is split into its two observable transitions (enqueue, admission). -/

structure AdmState where
  queue : List Nat
  active : Option Nat
deriving DecidableEq, Repr

inductive AdmEv where
  | enq (p : Nat)
  | adm (p : Nat)
  | disc (p : Nat)
deriving DecidableEq, Repr

/-- One admission transition.
* `enq`: `queue.append(os.getpid())` (src/database.py:186);
* `adm`: exit of the `while queue[0] != os.getpid()` poll loop followed by
  `active_connections[...] = os.getpid()` (src/database.py:188-191) —
  enabled only when the pid is at the head of the queue;
* `disc`: `active_connections[...] = None` then `popleft()`
  (src/database.py:207-208) — removes the head, database becomes idle. -/
inductive AdmStep : AdmState → AdmEv → AdmState → Prop where
  | enq (q : List Nat) (a : Option Nat) (p : Nat) :
      AdmStep ⟨q, a⟩ (.enq p) ⟨q ++ [p], a⟩
  | adm (q : List Nat) (a : Option Nat) (p : Nat) (h : q.head? = some p) :
      AdmStep ⟨q, a⟩ (.adm p) ⟨q, some p⟩
  | disc (q : List Nat) (p : Nat) :
      AdmStep ⟨q, some p⟩ (.disc p) ⟨q.tail, none⟩

inductive AdmTrace : AdmState → List AdmEv → AdmState → Prop where
  | nil (s : AdmState) : AdmTrace s [] s
  | cons {s s' s'' : AdmState} {e : AdmEv} {evs : List AdmEv} :
      AdmStep s e s' → AdmTrace s' evs s'' → AdmTrace s (e :: evs) s''

/-- The pids enqueued by a trace, in order (the `connect`-call order). -/
def enqSeq (evs : List AdmEv) : List Nat :=
  evs.filterMap fun e => match e with | .enq p => some p | _ => none

/-- The pids admitted by a trace, in order. -/
def admSeq (evs : List AdmEv) : List Nat :=
  evs.filterMap fun e => match e with | .adm p => some p | _ => none

/-- The number of disconnects in a trace. -/
def discCount (evs : List AdmEv) : Nat :=
  (evs.filter fun e => match e with | .disc _ => true | _ => false).length

theorem enqSeq_cons (e : AdmEv) (evs : List AdmEv) :
    enqSeq (e :: evs) = enqSeq [e] ++ enqSeq evs := by
  cases e <;> simp [enqSeq]

theorem admSeq_cons (e : AdmEv) (evs : List AdmEv) :
    admSeq (e :: evs) = admSeq [e] ++ admSeq evs := by
  cases e <;> simp [admSeq]

theorem discCount_cons (e : AdmEv) (evs : List AdmEv) :
    discCount (e :: evs) = discCount [e] + discCount evs := by
  cases e <;> simp [discCount]
  omega

/-- History invariant tying a reachable state to the enqueue sequence
`E`, the admission sequence `A` and the disconnect count `d` of the trace
that produced it: the queue is what remains of `E` after `d` pops, and
`A` is the prefix of `E` admitted so far (one past `d` while a holder is
active). -/
def AdmInv (E A : List Nat) (d : Nat) : AdmState → Prop
  | ⟨q, a⟩ =>
    q = E.drop d ∧
    match a with
    | none => A = E.take d ∧ d ≤ E.length
    | some p => A = E.take (d + 1) ∧ d + 1 ≤ E.length ∧ E[d]? = some p

theorem AdmStep_preserves {s s' : AdmState} {e : AdmEv} (hstep : AdmStep s e s')
    (E A : List Nat) (d : Nat) (hinv : AdmInv E A d s)
    (hnd : (A ++ admSeq [e]).Nodup) :
    AdmInv (E ++ enqSeq [e]) (A ++ admSeq [e]) (d + discCount [e]) s' := by
  cases hstep with
  | enq q a p =>
    obtain ⟨hq, hact⟩ := hinv
    show AdmInv (E ++ [p]) (A ++ []) (d + 0) ⟨q ++ [p], a⟩
    rw [List.append_nil, Nat.add_zero]
    cases a with
    | none =>
      obtain ⟨hA, hd⟩ := hact
      refine ⟨?_, ?_, ?_⟩
      · rw [hq, List.drop_append_eq_append_drop, show d - E.length = 0 by omega]
        simp
      · rw [hA, List.take_append_eq_append_take, show d - E.length = 0 by omega]
        simp
      · simp
        omega
    | some p0 =>
      obtain ⟨hA, hd, hEd⟩ := hact
      refine ⟨?_, ?_, ?_, ?_⟩
      · rw [hq, List.drop_append_eq_append_drop, show d - E.length = 0 by omega]
        simp
      · rw [hA, List.take_append_eq_append_take, show d + 1 - E.length = 0 by omega]
        simp
      · simp
        omega
      · rw [List.getElem?_append_left (by omega)]
        exact hEd
  | adm q a p h =>
    obtain ⟨hq, hact⟩ := hinv
    show AdmInv (E ++ []) (A ++ [p]) (d + 0) ⟨q, some p⟩
    rw [List.append_nil, Nat.add_zero]
    have hEd : E[d]? = some p := by
      rw [hq, List.head?_eq_getElem? (E.drop d), List.getElem?_drop, Nat.add_zero] at h
      exact h
    have hdlt : d < E.length := by
      by_contra hge
      rw [List.getElem?_eq_none (by omega)] at hEd
      cases hEd
    cases a with
    | none =>
      obtain ⟨hA, hd⟩ := hact
      refine ⟨hq, ?_, by omega, hEd⟩
      rw [hA, List.take_succ, hEd]
      rfl
    | some p0 =>
      obtain ⟨hA, hd, hEd0⟩ := hact
      exfalso
      have hp : p ∈ A := by
        have hAd : A[d]? = some p := by
          rw [hA, List.getElem?_take, if_pos (by omega)]
          exact hEd
        obtain ⟨hlt, heq⟩ := List.getElem?_eq_some.mp hAd
        exact heq ▸ List.getElem_mem hlt
      rw [List.nodup_append] at hnd
      exact hnd.2.2 hp (by show p ∈ [p]; simp)
  | disc q p =>
    obtain ⟨hq, hact⟩ := hinv
    obtain ⟨hA, hd, hEd⟩ := hact
    show AdmInv (E ++ []) (A ++ []) (d + 1) ⟨q.tail, none⟩
    rw [List.append_nil, List.append_nil]
    exact ⟨by rw [hq, List.tail_drop], hA, hd⟩

theorem AdmTrace_inv {s s' : AdmState} {evs : List AdmEv}
    (htr : AdmTrace s evs s') (E A : List Nat) (d : Nat)
    (hinv : AdmInv E A d s) (hnd : (A ++ admSeq evs).Nodup) :
    AdmInv (E ++ enqSeq evs) (A ++ admSeq evs) (d + discCount evs) s' := by
  induction htr generalizing E A d with
  | nil s =>
    have h0 : enqSeq ([] : List AdmEv) = [] := rfl
    have h1 : admSeq ([] : List AdmEv) = [] := rfl
    have h2 : discCount ([] : List AdmEv) = 0 := rfl
    rw [h0, h1, h2, List.append_nil, List.append_nil, Nat.add_zero]
    exact hinv
  | @cons s s1 s2 e evs hstep htr ih =>
    rw [admSeq_cons, ← List.append_assoc] at hnd
    have h1 := AdmStep_preserves hstep E A d hinv hnd.of_append_left
    have h2 := ih (E ++ enqSeq [e]) (A ++ admSeq [e]) (d + discCount [e]) h1 hnd
    rw [enqSeq_cons, admSeq_cons, discCount_cons, ← List.append_assoc,
      ← List.append_assoc, ← Nat.add_assoc]
    exact h2

/-- Claim C6, FIFO admission.  Model of `DB.connect` / `DB.disconnect`:
`connect` appends the caller's pid to the per-database queue (`enq`) and
the caller is admitted (`adm`, the database becoming active for that pid)
only when its pid is at the head of the queue; `disconnect` removes the
head and returns the database to idle.  In any admission trace from the
idle empty state in which P1, P2, P3 enqueue in that order (each process
admitted at most once), the sequence of admissions is a prefix of
`[P1, P2, P3]` — the processes are admitted in FIFO order. -/
theorem fifo_admission (p1 p2 p3 : Nat) (evs : List AdmEv) (s' : AdmState)
    (htr : AdmTrace ⟨[], none⟩ evs s')
    (henq : enqSeq evs = [p1, p2, p3])
    (hnd : (admSeq evs).Nodup) :
    ∃ k, admSeq evs = [p1, p2, p3].take k := by
  have hinv0 : AdmInv [] [] 0 ⟨[], none⟩ := ⟨rfl, rfl, Nat.le_refl 0⟩
  have hinv := AdmTrace_inv htr [] [] 0 hinv0 (by simpa using hnd)
  simp only [List.nil_append, Nat.zero_add] at hinv
  obtain ⟨q, a⟩ := s'
  obtain ⟨hq, hact⟩ := hinv
  cases a with
  | none =>
    refine ⟨discCount evs, ?_⟩
    rw [← henq]
    exact hact.1
  | some p =>
    refine ⟨discCount evs + 1, ?_⟩
    rw [← henq]
    exact hact.1

/-- Witness for C6: pids 1, 2, 3 enqueue in order; the trace interleaves
admissions and disconnects, and the admissions come out as `[1, 2, 3]`,
a prefix of the enqueue order. -/
theorem fifo_admission_witness :
    ∃ k, admSeq [AdmEv.enq 1, AdmEv.adm 1, AdmEv.enq 2, AdmEv.enq 3,
      AdmEv.disc 1, AdmEv.adm 2, AdmEv.disc 2, AdmEv.adm 3]
      = [1, 2, 3].take k := by
  refine fifo_admission 1 2 3 _ ⟨[3], some 3⟩ ?_ (by decide) (by decide)
  exact AdmTrace.cons (AdmStep.enq [] none 1)
    (AdmTrace.cons (AdmStep.adm [1] none 1 rfl)
    (AdmTrace.cons (AdmStep.enq [1] (some 1) 2)
    (AdmTrace.cons (AdmStep.enq [1, 2] (some 1) 3)
    (AdmTrace.cons (AdmStep.disc [1, 2, 3] 1)
    (AdmTrace.cons (AdmStep.adm [2, 3] none 2 rfl)
    (AdmTrace.cons (AdmStep.disc [2, 3] 2)
    (AdmTrace.cons (AdmStep.adm [3] none 3 rfl)
    (AdmTrace.nil _))))))))

/-! ## Database lifecycle
(`DatabaseEngine.create_database` / `DatabaseEngine.delete_database`)

The state the lifecycle operations read and write: the set of existing
database directories (the filesystem), the `active_connections` dict
(a tracked database may have holder `none`) and the `connection_queues`
dict.  Each operation returns the state after the call together with the
raised error, if any; a raised error leaves the state exactly as it was,
because the code raises before mutating anything. -/

inductive EngErr where
  | alreadyExists
  | notFound
  | hasActiveConnections
deriving DecidableEq, Repr

structure EngineState where
  dbs : List String
  active_connections : List (String × Option Nat)
  connection_queues : List (String × List Nat)
deriving DecidableEq, Repr

namespace DatabaseEngine

/-- Embeds `self.active_connections.get(database_name)` under Python truthiness
(src/database.py:98): a missing key, holder `None`, and pid `0` are all
falsy. -/
def activeTruthy (s : EngineState) (name : String) : Bool :=
  match s.active_connections.lookup name with
  | some (some p) => p != 0
  | _ => false

/-- Embeds `DatabaseEngine.create_database` (src/database.py:62-87): raises
`FileExistsError` when the database directory exists; otherwise creates
the directory with its encrypted key file and log.  The in-memory
connection dicts are untouched (tracking is initialized lazily by
`_initialize_database_if_needed`). -/
def create_database (s : EngineState) (name : String) :
    EngineState × Option EngErr :=
  if name ∈ s.dbs then (s, some .alreadyExists)
  else ({ s with dbs := s.dbs ++ [name] }, none)

/-- Embeds `DatabaseEngine.delete_database` (src/database.py:89-110): raises
`FileNotFoundError` when the directory is absent; raises `RuntimeError`
(`HasActiveConnections`) when `active_connections.get(name)` is truthy;
otherwise removes the files and directory and pops the in-memory
entries. -/
def delete_database (s : EngineState) (name : String) :
    EngineState × Option EngErr :=
  if name ∉ s.dbs then (s, some .notFound)
  else if activeTruthy s name then (s, some .hasActiveConnections)
  else ({ dbs := s.dbs.erase name,
          active_connections := s.active_connections.filter fun kv => kv.1 != name,
          connection_queues := s.connection_queues.filter fun kv => kv.1 != name },
        none)

end DatabaseEngine

/-- Claim C7, database lifecycle errors.  `create_database` fails with
`AlreadyExists` exactly when the directory exists — in particular
creating the same name twice fails the second time; `delete_database`
fails with `NotFound` when the database is absent and with
`HasActiveConnections` when the admission state has a truthy active
holder.  Every failing call returns the engine state unchanged: the
filesystem and the in-memory dicts are exactly as before the call. -/
theorem DatabaseEngine.lifecycle_errors (s : EngineState) (name : String) :
    (name ∈ s.dbs →
      DatabaseEngine.create_database s name = (s, some .alreadyExists)) ∧
    (name ∉ s.dbs →
      DatabaseEngine.create_database
          (DatabaseEngine.create_database s name).1 name
        = ((DatabaseEngine.create_database s name).1, some .alreadyExists)) ∧
    (name ∉ s.dbs →
      DatabaseEngine.delete_database s name = (s, some .notFound)) ∧
    (name ∈ s.dbs → DatabaseEngine.activeTruthy s name = true →
      DatabaseEngine.delete_database s name = (s, some .hasActiveConnections)) := by
  refine ⟨?_, ?_, ?_, ?_⟩
  · intro h
    rw [DatabaseEngine.create_database, if_pos h]
  · intro h
    simp only [DatabaseEngine.create_database, if_neg h]
    simp
  · intro h
    rw [DatabaseEngine.delete_database, if_pos h]
  · intro h htr
    rw [DatabaseEngine.delete_database, if_neg (by simp [h]), if_pos htr]

/-- Witness for C7 at concrete engine states: creating `"x"` when it
exists, deleting a missing `"y"`, and deleting `"x"` while pid 5 holds
the connection. -/
theorem DatabaseEngine.lifecycle_errors_witness :
    DatabaseEngine.create_database ⟨["x"], [("x", some 5)], []⟩ "x"
      = (⟨["x"], [("x", some 5)], []⟩, some .alreadyExists) ∧
    DatabaseEngine.delete_database ⟨[], [], []⟩ "y"
      = (⟨[], [], []⟩, some .notFound) ∧
    DatabaseEngine.delete_database ⟨["x"], [("x", some 5)], []⟩ "x"
      = (⟨["x"], [("x", some 5)], []⟩, some .hasActiveConnections) :=
  ⟨(DatabaseEngine.lifecycle_errors ⟨["x"], [("x", some 5)], []⟩ "x").1 (by decide),
   (DatabaseEngine.lifecycle_errors ⟨[], [], []⟩ "y").2.2.1 (by decide),
   (DatabaseEngine.lifecycle_errors ⟨["x"], [("x", some 5)], []⟩ "x").2.2.2
     (by decide) (by decide)⟩
